import Mathlib

set_option maxHeartbeats 1000000
set_option maxRecDepth 8000

/-
Shallow embedding of the hero-detection core of h3sed
(src/h3sed/plugins/hero/__init__.py and src/h3sed/main.py).

Modelling conventions:
* A byte is a natural number (< 256 for real inputs); a savefile buffer is a
  size together with a contents function, so that concrete multi-kilobyte
  buffers can be evaluated by the kernel.
* Python byte regexes are embedded as executable Boolean matchers, translated
  pattern-by-pattern from RGX_HERO, rgx_strip and rgx_nulls in the source.
* Python `None` for a savefile version is modelled as the empty string; both
  are falsy in the `if ver:` test of HeroPlugin.parse, so branching agrees.
* `re.search(RGX, raw[pos:])` is modelled by scanning with absolute offsets;
  the relative spans of the Python code are obtained by subtracting `pos`,
  and the loop bookkeeping (`pos += end`, `pos += start + 1`) is performed
  directly on absolute offsets, which is equivalent.
* The GUI, undo/redo, YAML and wx layers are outside the embedding; `Hero`
  keeps the data fields of the source class (the `savefile` back-reference and
  the `yamls1`/`yamls2` display caches are dropped, and the dynamically added
  `stats`/`artifacts` plugin attributes are modelled as an association list
  and an `Option`, `none` standing for "attribute absent").
-/

/-- Byte class `[^\x00-\x19,\xF0-\xFF]` of `rgx_strip` in HeroPlugin.parse:
bytes 0x1A..0xEF except the comma 0x2C. -/
def allowedChar (c : Nat) : Bool := 0x1A ≤ c && c ≤ 0xEF && c != 0x2C

/-- Byte class `[^\x00-\x20,\xF0-\xFF]` for the first name byte in RGX_HERO:
bytes 0x21..0xEF except the comma 0x2C. -/
def nameFirstOk (c : Nat) : Bool := 0x21 ≤ c && c ≤ 0xEF && c != 0x2C

/-- Python `rgx_strip.match(s)` with `rgx_strip = ^([^\x00-\x19,\xF0-\xFF]+)\x00+$`:
one or more allowed bytes, then one or more NUL bytes, then the end of the
string (Python `$` also matches just before one trailing newline byte 0x0A,
which is retained here for faithfulness although the structural pattern
guarantees a trailing NUL at the call sites). -/
def stripMatch (s : List Nat) : Bool :=
  let pre := s.takeWhile allowedChar
  let rest := s.dropWhile allowedChar
  let zs := rest.takeWhile (fun c => c == 0)
  let tl := rest.dropWhile (fun c => c == 0)
  !pre.isEmpty && !zs.isEmpty && (tl.isEmpty || tl == [10])

/-- Group 1 of `rgx_strip`: the greedy run of allowed bytes at the start of the
name capture (the hero name handed to `util.to_unicode`, kept as bytes here). -/
def stripName (s : List Nat) : List Nat := s.takeWhile allowedChar

/-- Second alternative of `rgx_nulls`: `(\x00{4}\xFF{4})+$` anchored at the
start by `re.match` — one or more 8-byte blocks of four NULs then four 0xFF,
ending the string (or followed by one trailing newline byte, per Python `$`). -/
def blocksThenEnd : List Nat → Bool
  | a :: b :: c :: d :: e :: f :: g :: k :: rest =>
      a == 0 && b == 0 && c == 0 && d == 0 &&
      e == 255 && f == 255 && g == 255 && k == 255 &&
      (rest.isEmpty || rest == [10] || blocksThenEnd rest)
  | _ => false

/-- Python `rgx_nulls.match(s)` with `rgx_nulls = ^(\x00+)|(\x00{4}\xFF{4})+$`:
the alternation splits into `^\x00+` (at least one NUL at the start, rest
unconstrained) or the NUL/0xFF block repetition to the end. -/
def nullsMatch (s : List Nat) : Bool := s.head? == some 0 || blocksThenEnd s

/-- A savefile byte buffer: a size plus a contents function (bytes at offsets
at or beyond `size` are never inspected by the matchers). -/
structure Buffer where
  size : Nat
  get : Nat → Nat

/-- The `n` bytes of `b` starting at offset `s`, as a list (a capture group or
a `raw[s:s+n]` slice). -/
def extractList (b : Buffer) (s n : Nat) : List Nat :=
  (List.range n).map (fun k => b.get (s + k))

/-- Each of the `n` bytes starting at offset `s` satisfies `p`. -/
def allIn (b : Buffer) (s : Nat) : Nat → (Nat → Bool) → Bool
  | 0, _ => true
  | n+1, p => p (b.get s) && allIn b (s+1) n p

/-- The four bytes at offsets `o..o+3` all equal `v`. -/
def all4 (b : Buffer) (o v : Nat) : Bool :=
  b.get o == v && b.get (o+1) == v && b.get (o+2) == v && b.get (o+3) == v

/-- Bytes `o+1..o+3` are NUL (the `.\x00{3}` openings in RGX_HERO's slots). -/
def zeroTail3 (b : Buffer) (o : Nat) : Bool :=
  b.get (o+1) == 0 && b.get (o+2) == 0 && b.get (o+3) == 0

/-- One 8-byte worn-equipment slot of RGX_HERO:
`(\xFF{4} .{4}) | (.\x00{3} (\x00{4} | \xFF{4})) | (.\x00{3}.{2}\x00{2})`. -/
def wornSlotOk (b : Buffer) (o : Nat) : Bool :=
  all4 b o 255 ||
  (zeroTail3 b o && (all4 b (o+4) 0 || all4 b (o+4) 255)) ||
  (zeroTail3 b o && b.get (o+6) == 0 && b.get (o+7) == 0)

/-- One 8-byte backpack slot of RGX_HERO:
`((.\x00{3}) | \xFF{4}) (\x00{4} | \xFF{4})`. -/
def backSlotOk (b : Buffer) (o : Nat) : Bool :=
  (zeroTail3 b o || all4 b o 255) && (all4 b (o+4) 0 || all4 b (o+4) 255)

/-- `n` consecutive 8-byte slots starting at offset `o` all satisfy `p`. -/
def allSlots (b : Buffer) (o : Nat) : Nat → (Buffer → Nat → Bool) → Bool
  | 0, _ => true
  | n+1, p => p b o && allSlots b (o+8) n p

/-- Whether RGX_HERO matches the 1025-byte window of `b` starting at offset
`i`, segment by segment (VERBOSE whitespace ignored, DOTALL `.` = any byte):
movement/experience (any), skill-slot count `[\x00-\x1C][\x00]{3}` at 12..15,
spell points and level (any), unknown and army bytes (any), the name capture
`[^\x00-\x20,\xF0-\xFF].{11}\x00` at 138..150, skill levels `[\x00-\x03]{28}`,
skill slots `[\x00-\x1C]{28}`, primary stats (any), two 70-byte `[\x00-\x01]`
spell tables, 19 worn-equipment slots, 64 backpack slots, and the reserved
combination-artifact bytes `.[\x00-\x01]{6}[\x00-\x02][\x00-\x01][\x00-\x05]`. -/
def matchAt (b : Buffer) (i : Nat) : Bool :=
  Nat.ble (i + 1025) b.size &&
  Nat.ble (b.get (i+12)) 0x1C && b.get (i+13) == 0 && b.get (i+14) == 0 && b.get (i+15) == 0 &&
  nameFirstOk (b.get (i+138)) && b.get (i+150) == 0 &&
  allIn b (i+151) 28 (fun c => Nat.ble c 3) &&
  allIn b (i+179) 28 (fun c => Nat.ble c 0x1C) &&
  allIn b (i+211) 140 (fun c => Nat.ble c 1) &&
  allSlots b (i+351) 19 wornSlotOk &&
  allSlots b (i+503) 64 backSlotOk &&
  allIn b (i+1016) 6 (fun c => Nat.ble c 1) &&
  Nat.ble (b.get (i+1022)) 2 && Nat.ble (b.get (i+1023)) 1 && Nat.ble (b.get (i+1024)) 5

/-- Leftmost RGX_HERO match at or after offset `i`, with explicit fuel (the
scan advances one byte per failed attempt; `b.size + 1 - i` fuel always
suffices because the pattern is 1025 bytes wide). -/
def searchFromAux (b : Buffer) : Nat → Nat → Option Nat
  | 0, _ => none
  | f+1, i =>
    if b.size < i + 1025 then none
    else if matchAt b i then some i
    else searchFromAux b f (i+1)

/-- Leftmost RGX_HERO match at or after offset `i` (Python
`re.search(RGX, raw[i:])`, with the match start reported absolutely). -/
def searchFrom (b : Buffer) (i : Nat) : Option Nat :=
  searchFromAux b (b.size + 1 - i) i

/-- One regex match: absolute span plus the two named capture groups used by
HeroPlugin.parse (`name` at offsets 138..150, `artifacts` at 351..502). -/
structure MatchData where
  mstart : Nat
  mend : Nat
  nameCap : List Nat
  artCap : List Nat
deriving DecidableEq

/-- The base-layout matcher: RGX_HERO's leftmost match with its captures. -/
def searchHero (b : Buffer) (pos : Nat) : Option MatchData :=
  (searchFrom b pos).map
    (fun i => ⟨i, i + 1025, extractList b (i+138) 13, extractList b (i+351) 152⟩)

/-- The secondary validation of HeroPlugin.parse, line 886:
`rgx_strip.match(m.group("name")) and not rgx_nulls.match(m.group("artifacts"))`. -/
def accepts (md : MatchData) : Bool := stripMatch md.nameCap && !nullsMatch md.artCap

/-- The Hero container (class Hero in the source). `name` is the stripped name
(group 1 of rgx_strip, kept as bytes), `bytes` the owned copy of the matched
window, `place` the ordinal in this version's detection pass, and `span` the
half-open byte range in the savefile. `basestats` is the lazily computed
base-attribute cache; `stats` and `artifacts` model the attributes added
dynamically by the stats/artifacts subplugins (`none` = attribute absent). -/
structure Hero where
  name : List Nat
  bytes : List Nat
  place : Nat
  span : Nat × Nat
  basestats : List (String × Int)
  stats : List (String × Int)
  artifacts : Option (List (Option String))
deriving DecidableEq

/-- The Hero built for an accepted match in HeroPlugin.parse, lines 887-889:
fresh copies, `place = len(vresult)` = the running accepted count. -/
def mkHero (extract : Nat → Nat → List Nat) (md : MatchData) (cnt : Nat) : Hero :=
  { name := stripName md.nameCap
    bytes := extract md.mstart md.mend
    place := cnt
    span := (md.mstart, md.mend)
    basestats := []
    stats := []
    artifacts := none }

/-- The inner detection loop of HeroPlugin.parse (lines 882-894) for one
version, over an abstract leftmost matcher `search` and slice function
`extract`: accepted matches are collected and the scan resumes at the match
end; matches failing secondary validation are skipped silently and the scan
resumes one byte past the failed match start. Fuel bounds the iteration count
(the concrete matcher advances at least one byte per iteration, so
`b.size + 1` fuel reproduces the Python loop exactly). -/
def runPassAux (search : Nat → Option MatchData) (extract : Nat → Nat → List Nat) :
    Nat → Nat → Nat → List Hero
  | 0, _, _ => []
  | fuel+1, pos, cnt =>
    match search pos with
    | none => []
    | some md =>
      if accepts md then
        mkHero extract md cnt :: runPassAux search extract fuel md.mend (cnt+1)
      else
        runPassAux search extract fuel (md.mstart + 1) cnt

/-- Slice function for a buffer: `bytearray(raw[s:e])`. -/
def bufExtract (b : Buffer) : Nat → Nat → List Nat := fun s e => extractList b s (e - s)

/-- One full detection pass over `b` with matcher `search`, starting at the
fixed minimum offset 10000 (`pos = 10000  # Hero structs are more to the end
of the file`). -/
def runPassOn (search : Buffer → Nat → Option MatchData) (b : Buffer) : List Hero :=
  runPassAux (search b) (bufExtract b) (b.size + 1) 10000 0

/-- One detection pass with the base-layout matcher RGX_HERO. -/
def heroPass (b : Buffer) : List Hero := runPassOn searchHero b

/-- ASCII lowercasing of one byte (models str.lower() on the hero names in
scope, which the name byte class keeps ASCII-comparable). -/
def lowerByte (c : Nat) : Nat := if 65 ≤ c && c ≤ 90 then c + 32 else c

/-- Case-folded name key, `x.name.lower()`. -/
def lowerName (s : List Nat) : List Nat := s.map lowerByte

/-- Lexicographic order on byte strings (Python string comparison by code
point, with a proper prefix ordered first). -/
def lexLe : List Nat → List Nat → Bool
  | [], _ => true
  | _ :: _, [] => false
  | a :: s, b :: t => if a < b then true else if b < a then false else lexLe s t

/-- Stable ascending insertion: the new element goes after every existing
element whose key is less than or equal to its own. -/
def insOrd {α : Type} (le : α → α → Bool) (a : α) : List α → List α
  | [] => [a]
  | b :: l => if le b a then b :: insOrd le a l else a :: b :: l

/-- Stable ascending sort (extensionally equal to Python `sorted`, which is a
stable ascending sort of its input). -/
def stableSort {α : Type} (le : α → α → Bool) (l : List α) : List α :=
  l.foldl (fun acc x => insOrd le x acc) []

/-- The sort key relation of HeroPlugin.parse line 907:
`sorted(..., key=lambda x: x.name.lower())`. -/
def heroLe (a b : Hero) : Bool := lexLe (lowerName a.name) (lowerName b.name)

/-- The outcome of HeroPlugin.parse: the hero list written to `self._heroes`,
the savefile version after the call, and whether the user-visible
"No heroes identified" status was emitted. -/
structure ParseOutcome where
  heroes : List Hero
  version : String
  reported : Bool
deriving DecidableEq

/-- Number of heroes one version's detection pass yields
(`vcounts[ver] = len(version_results[ver])`). -/
def passCount (searchOf : String → Buffer → Nat → Option MatchData) (b : Buffer)
    (v : String) : Nat :=
  (runPassOn (searchOf v) b).length

/-- The effective candidate list of HeroPlugin.parse:
`if not versions: versions = [self.savefile.version]`. -/
def effVersions (versions0 : List String) (ver0 : String) : List String :=
  if versions0.isEmpty then [ver0] else versions0

/-- Python `max(vcounts.values())` over the candidate versions (the candidate
list is non-empty after the fallback, and counts are naturals, so folding
from seed 0 agrees with Python `max`). -/
def maxCount (searchOf : String → Buffer → Nat → Option MatchData) (b : Buffer)
    (versions : List String) : Nat :=
  (versions.map (passCount searchOf b)).foldl Nat.max 0

/-- Python `[k for k in all_versions if vcounts[k] == max(vcounts.values())]`:
the candidates attaining the maximal hero count, in candidate-list order. -/
def maxVers (searchOf : String → Buffer → Nat → Option MatchData) (b : Buffer)
    (versions : List String) : List String :=
  versions.filter (fun v => passCount searchOf b v == maxCount searchOf b versions)

/-- HeroPlugin.parse (lines 857-915), over an abstract per-version matcher
`searchOf` (`plugins.adapt(self, "regex", RGX_HERO)` — version plugins are not
under src/, so the adapted regex is a parameter; the base layout instantiates
it with `searchHero`). `versions0` is the candidate list (plugin order;
`while versions: ver = versions.pop()` processes it from the end, which does
not affect the per-version results), `ver0` the savefile version before the
call. Selection: `ver = maxcount_vers[-1] if maxcount_vers else None`;
a truthy `ver` is installed and its heroes sorted by case-insensitive name,
otherwise the version is restored and "No heroes identified" is reported.
Assumes distinct version names, as plugin names are. -/
def parse (searchOf : String → Buffer → Nat → Option MatchData) (b : Buffer)
    (versions0 : List String) (ver0 : String) : ParseOutcome :=
  match (maxVers searchOf b (effVersions versions0 ver0)).getLast? with
  | some v =>
    if v = "" then { heroes := [], version := ver0, reported := true }
    else
      { heroes := stableSort heroLe (runPassOn (searchOf v) b)
        version := v
        reported := false }
  | none => { heroes := [], version := ver0, reported := true }

/-- Stat-list lookup for one artifact value: `STATS.get(item)`, with a missing
key or an empty-slot `None` value giving the neutral `[]` (both are falsy in
the Python `filter(STATS.get, ...)`). -/
def artStats (STATS : String → Option (List Int)) : Option String → List Int
  | none => []
  | some s => (STATS s).getD []

/-- Python truthiness of `STATS.get(item)`: present and a non-empty list. -/
def artTruthy (STATS : String → Option (List Int)) (it : Option String) : Bool :=
  !(artStats STATS it).isEmpty

/-- An equipped value naming an artifact present in the bonus table. -/
def presentInTable (STATS : String → Option (List Int)) : Option String → Bool
  | none => false
  | some s => (STATS s).isSome

/-- Dictionary read `self.stats[k]` (the heroes under consideration always
carry the key; a hypothetical missing key defaults to 0 here where Python
would raise). -/
def statGet (l : List (String × Int)) (k : String) : Int := (l.lookup k).getD 0

/-- Hero.ensure_basestats (lines 274-282): optionally clear the cache, return
unchanged when the cache is non-empty or the hero has no `artifacts`
attribute, otherwise fold the bonus rows of the equipped artifacts with
truthy table entries (`diff = [a + b for a, b in zip(diff, STATS[item])]`,
zip truncation included) and store displayed-minus-bonus per primary
attribute. `STATS` is `metadata.Store.get("artifact_stats")` and `PA` is
`metadata.PrimaryAttributes` — both configuration outside src/, taken as
parameters. -/
def ensure_basestats (STATS : String → Option (List Int)) (PA : List String)
    (clear : Bool) (h : Hero) : Hero :=
  let h1 := if clear then { h with basestats := [] } else h
  if !h1.basestats.isEmpty || h1.artifacts.isNone then h1
  else
    let arts := h1.artifacts.getD []
    let diff := (arts.filter (artTruthy STATS)).foldl
        (fun d it => List.zipWith (· + ·) d (artStats STATS it))
        (List.replicate PA.length (0 : Int))
    { h1 with
      basestats := (PA.zip diff).map (fun kv => (kv.1, statGet h1.stats kv.1 - kv.2)) }

/-- Total bonus to primary attribute `i` over the equipped artifacts present
in the bonus table. -/
def bonusAt (STATS : String → Option (List Int)) (arts : List (Option String))
    (i : Nat) : Int :=
  ((arts.filter (presentInTable STATS)).map (fun it => (artStats STATS it).getD i 0)).sum

/-- A Python value compared against a Hero: another Hero, or anything else
(the `isinstance(other, Hero)` test of Hero.__eq__). -/
inductive PyVal where
  | hero (h : Hero)
  | other

/-- Hero.__eq__ (lines 284-286): `isinstance(other, Hero) and
(self.name, self.place) == (other.name, other.place)`. -/
def heroEq (a : Hero) : PyVal → Bool
  | .hero b => decide (a.name = b.name ∧ a.place = b.place)
  | .other => false

/-- Modelled from the spec: `metadata.Savefile.patch` is not under src/ (only
its caller HeroPlugin.patch is); per the spec, "the patch step produces a new
buffer with the target span's bytes replaced, rest untouched" — a splice of
the new bytes over the half-open span. -/
def savefilePatch (raw : List Nat) (bs : List Nat) (span : Nat × Nat) : List Nat :=
  raw.take span.1 ++ bs ++ raw.drop span.2

/-- HeroPlugin.patch line 1058: `self.savefile.patch(self._hero.bytes,
self._hero.span)` — splice the hero's current byte window into the savefile
buffer at the hero's span (the plugin serialization that refreshes
`hero.bytes` beforehand is abstracted into the `bytes` field). -/
def heroPluginPatch (raw : List Nat) (h : Hero) : List Nat :=
  savefilePatch raw h.bytes h.span

/-- Concrete detection inputs: one synthetic hero record. Byte `o` of a record
whose name is the single byte `nameByte`: the name at record offset 138, all
19 worn-equipment slots blank (`FF FF FF FF 00 00 00 00`, the layout's
blank-spot encoding), and every other byte zero. -/
def recByte (nameByte : Nat) (o : Nat) : Nat :=
  if o = 138 then nameByte
  else if 351 ≤ o && o < 503 && (o - 351) % 8 < 4 then 255
  else 0

/-- An 11025-byte buffer holding exactly one synthetic hero record (name "A",
all worn slots blank) at offset 10000. -/
def myBuf : Buffer :=
  ⟨11025, fun i => if i < 10000 then 0 else recByte 65 (i - 10000)⟩

/-- The RGX_HERO match for the record in `myBuf`. -/
def mdHero : MatchData :=
  ⟨10000, 11025, extractList myBuf 10138 13, extractList myBuf 10351 152⟩

/-- A 12050-byte buffer holding two synthetic hero records: name "B" at offset
10000 and name "A" at offset 11025 (so that sorting visibly reorders them). -/
def myBuf2 : Buffer :=
  ⟨12050, fun i =>
    if i < 10000 then 0
    else if i < 11025 then recByte 66 (i - 10000)
    else recByte 65 (i - 11025)⟩

/-- The base-layout matcher for every version name (used to instantiate the
abstract per-version matcher at concrete inputs). -/
def searchOfHero : String → Buffer → Nat → Option MatchData := fun _ => searchHero

/-- A matcher that never matches, for any version. -/
def noMatchSearch : String → Buffer → Nat → Option MatchData := fun _ _ _ => none

/-- An empty savefile buffer. -/
def emptyBuf : Buffer := ⟨0, fun _ => 0⟩

/-- A small accepted match (valid name capture `"A\x00"`, artifacts capture
`[1]` not matched by rgx_nulls) used to build tied detection passes. -/
def mdTie : MatchData := ⟨10000, 10001, [65, 0], [1]⟩

/-- A matcher yielding exactly one accepted match per pass, for every version:
the two candidate versions tie at one hero each. -/
def tieSearch : String → Buffer → Nat → Option MatchData :=
  fun _ _ pos => if pos ≤ 10000 then some mdTie else none

/-- A concrete 10-byte pre-patch buffer. -/
def rawW : List Nat := [0, 1, 2, 3, 4, 5, 6, 7, 8, 9]

/-- A concrete hero whose 3-byte window spans `[3, 6)` of `rawW`. -/
def heroW : Hero :=
  { name := [72], bytes := [7, 7, 7], place := 0, span := (3, 6)
    basestats := [], stats := [], artifacts := none }

/-- A concrete artifact-bonus table: one artifact, +3 attack. -/
def STATS6 : String → Option (List Int) :=
  fun s => if s = "Axe" then some [3, 0, 0, 0] else none

/-- The four primary attributes (metadata.PrimaryAttributes; the POS table of
the source lists attack, defense, power, knowledge). -/
def PA4 : List String := ["attack", "defense", "power", "knowledge"]

/-- A concrete hero with displayed attack 10 and one equipped "Axe". -/
def hero6 : Hero :=
  { name := [65], bytes := [], place := 0, span := (0, 0), basestats := []
    stats := [("attack", 10), ("defense", 1), ("power", 1), ("knowledge", 1)]
    artifacts := some [some "Axe"] }

/-- `hero6` after the artifact is removed (slot emptied) and the cache cleared. -/
def hero6b : Hero := { hero6 with artifacts := some [none] }

/-- A hero with a non-empty base-stats cache and since-changed displayed stats. -/
def hero10a : Hero := { hero6 with basestats := [("attack", 5)], stats := [("attack", 99)] }

/-- A hero without the dynamically added `artifacts` attribute. -/
def hero10b : Hero := { hero6 with artifacts := none }

/-- Claim C5 requires the patched buffer to agree with the pre-patch buffer at
every offset outside the hero's half-open span, when the spliced window has
the span's width: the bytes before the span land in the unchanged `take` part
and the bytes at or past the span's end land in the unchanged `drop` part at
an unshifted offset. -/
theorem claim5 (raw : List Nat) (h : Hero)
    (hlen : h.bytes.length = h.span.2 - h.span.1)
    (hse : h.span.1 ≤ h.span.2) (hsz : h.span.2 ≤ raw.length) :
    ∀ i, i < h.span.1 ∨ h.span.2 ≤ i →
      (heroPluginPatch raw h)[i]? = raw[i]? := by
  intro i hi
  unfold heroPluginPatch savefilePatch
  rcases hi with hi | hi
  · have hlt : i < (raw.take h.span.1).length := by
      rw [List.length_take]; omega
    rw [List.getElem?_append_left (by rw [List.length_append, List.length_take]; omega)]
    rw [List.getElem?_append_left hlt]
    exact List.getElem?_take_of_lt hi
  · have l1 : (raw.take h.span.1).length = h.span.1 := by rw [List.length_take]; omega
    rw [List.getElem?_append_right (by rw [List.length_append, l1]; omega)]
    rw [List.length_append, l1, hlen, List.getElem?_drop]
    congr 1
    omega

/-- Witness for C5 at a concrete input: patching `heroW`'s window into `rawW`
leaves offsets 1 (before the span) and 7 (after the span) unchanged. -/
theorem claim5_witness :
    (heroPluginPatch rawW heroW)[1]? = rawW[1]? ∧
    (heroPluginPatch rawW heroW)[7]? = rawW[7]? :=
  ⟨claim5 rawW heroW (by decide) (by decide) (by decide) 1 (Or.inl (by decide)),
   claim5 rawW heroW (by decide) (by decide) (by decide) 7 (Or.inr (by decide))⟩

/-- Claim C9: Hero.__eq__ compares exactly the `(name, place)` pair against
another Hero, and is false against any non-Hero value; byte contents and all
other fields are irrelevant. -/
theorem claim9 : ∀ (a : Hero) (o : PyVal),
    heroEq a o = true ↔ ∃ b, o = PyVal.hero b ∧ a.name = b.name ∧ a.place = b.place := by
  intro a o
  cases o with
  | hero b =>
    constructor
    · intro h
      exact ⟨b, rfl, of_decide_eq_true h⟩
    · intro h
      rcases h with ⟨b2, hb2, hn, hp⟩
      cases hb2
      exact decide_eq_true ⟨hn, hp⟩
  | other =>
    constructor
    · intro h
      exact absurd h (by simp [heroEq])
    · intro h
      rcases h with ⟨b2, hb2, _, _⟩
      cases hb2

/-- Claim C10: with a non-empty cache and `clear=False`, ensure_basestats
returns the hero unchanged regardless of current stats or artifacts; and a
hero without the `artifacts` attribute is also returned unchanged (an empty
cache stays empty). -/
theorem claim10 (STATS : String → Option (List Int)) (PA : List String) (h : Hero) :
    (h.basestats ≠ [] → ensure_basestats STATS PA false h = h) ∧
    (h.artifacts = none → ensure_basestats STATS PA false h = h) := by
  constructor
  · intro hb
    cases hbs : h.basestats with
    | nil => exact absurd hbs hb
    | cons x t =>
      simp [ensure_basestats, hbs]
  · intro ha
    simp [ensure_basestats, ha]

/-- Witness for C10: a hero with a stale non-empty cache is untouched, and a
hero without an `artifacts` attribute is untouched. -/
theorem claim10_witness :
    ensure_basestats STATS6 PA4 false hero10a = hero10a ∧
    ensure_basestats STATS6 PA4 false hero10b = hero10b :=
  ⟨(claim10 STATS6 PA4 hero10a).1 (by decide),
   (claim10 STATS6 PA4 hero10b).2 (by decide)⟩

/-- Every hero collected by the detection loop starts at or after the loop's
current position, and its span is non-empty, provided the matcher only
returns matches at or after the queried position with a positive width (true
of every regex search, and proved below for the RGX_HERO matcher). -/
theorem runPassAux_bounds (search : Nat → Option MatchData) (extract : Nat → Nat → List Nat)
    (hprog : ∀ pos md, search pos = some md → pos ≤ md.mstart ∧ md.mstart < md.mend) :
    ∀ fuel pos cnt, ∀ h ∈ runPassAux search extract fuel pos cnt,
      pos ≤ h.span.1 ∧ h.span.1 < h.span.2 := by
  intro fuel
  induction fuel with
  | zero => intro pos cnt h hm; simp [runPassAux] at hm
  | succ n ih =>
    intro pos cnt h hm
    rw [runPassAux] at hm
    split at hm
    · simp at hm
    · rename_i md hs
      have hp := hprog pos md hs
      split at hm
      · rcases List.mem_cons.1 hm with rfl | hm
        · exact ⟨hp.1, hp.2⟩
        · have h2 := ih md.mend (cnt+1) h hm
          refine ⟨?_, h2.2⟩
          omega
      · have h2 := ih (md.mstart + 1) cnt h hm
        refine ⟨?_, h2.2⟩
        omega

/-- The heroes collected by one detection loop have pairwise non-overlapping,
strictly increasing spans. -/
theorem runPassAux_pairwise (search : Nat → Option MatchData) (extract : Nat → Nat → List Nat)
    (hprog : ∀ pos md, search pos = some md → pos ≤ md.mstart ∧ md.mstart < md.mend) :
    ∀ fuel pos cnt, List.Pairwise
      (fun h1 h2 => h1.span.2 ≤ h2.span.1 ∧ h1.span.1 < h2.span.1)
      (runPassAux search extract fuel pos cnt) := by
  intro fuel
  induction fuel with
  | zero => intro pos cnt; simp [runPassAux]
  | succ n ih =>
    intro pos cnt
    rw [runPassAux]
    split
    · simp
    · rename_i md hs
      have hp := hprog pos md hs
      split
      · rw [List.pairwise_cons]
        refine ⟨?_, ih _ _⟩
        intro h2 hm
        have hb := runPassAux_bounds search extract hprog n md.mend (cnt+1) h2 hm
        constructor
        · exact hb.1
        · show md.mstart < h2.span.1
          omega
      · exact ih _ _

/-- A successful fuelled scan returns a position at or after the start, where
the pattern matches. -/
theorem searchFromAux_some (b : Buffer) :
    ∀ f i j, searchFromAux b f i = some j → i ≤ j ∧ matchAt b j = true := by
  intro f
  induction f with
  | zero => intro i j h; simp [searchFromAux] at h
  | succ n ih =>
    intro i j h
    rw [searchFromAux] at h
    by_cases h1 : b.size < i + 1025
    · rw [if_pos h1] at h; simp at h
    · rw [if_neg h1] at h
      by_cases h2 : matchAt b i = true
      · rw [if_pos h2] at h
        cases h
        exact ⟨Nat.le_refl _, h2⟩
      · rw [if_neg h2] at h
        have h3 := ih (i+1) j h
        exact ⟨by omega, h3.2⟩

/-- The RGX_HERO matcher is progressive: every reported match starts at or
after the queried position and is 1025 bytes wide. -/
theorem searchHero_prog (b : Buffer) :
    ∀ pos md, searchHero b pos = some md → pos ≤ md.mstart ∧ md.mstart < md.mend := by
  intro pos md h
  unfold searchHero searchFrom at h
  cases hs : searchFromAux b (b.size + 1 - pos) pos with
  | none => rw [hs] at h; simp at h
  | some j =>
    rw [hs] at h
    have hj := searchFromAux_some b _ pos j hs
    simp only [Option.map_some'] at h
    injection h with h2
    subst h2
    exact ⟨hj.1, by show j < j + 1025; omega⟩

/-- Claim C4: within one detection pass, a structurally matching candidate
rejected by secondary validation makes the scan resume at one byte past the
rejected match's start (silently, with no hero recorded), an accepted match
makes the scan resume at the match's end, and consequently the accepted
heroes of one pass have pairwise non-overlapping, strictly increasing spans
(each span also being non-empty). -/
theorem claim4 (search : Nat → Option MatchData) (extract : Nat → Nat → List Nat)
    (hprog : ∀ pos md, search pos = some md → pos ≤ md.mstart ∧ md.mstart < md.mend)
    (fuel pos cnt : Nat) (md : MatchData) (hm : search pos = some md) :
    (accepts md = false →
      runPassAux search extract (fuel+1) pos cnt
        = runPassAux search extract fuel (md.mstart + 1) cnt) ∧
    (accepts md = true →
      runPassAux search extract (fuel+1) pos cnt
        = mkHero extract md cnt :: runPassAux search extract fuel md.mend (cnt+1)) ∧
    List.Pairwise (fun h1 h2 => h1.span.2 ≤ h2.span.1 ∧ h1.span.1 < h2.span.1)
      (runPassAux search extract fuel pos cnt) ∧
    (∀ h ∈ runPassAux search extract fuel pos cnt, h.span.1 < h.span.2) := by
  refine ⟨?_, ?_, runPassAux_pairwise search extract hprog fuel pos cnt,
    fun h hmem => (runPassAux_bounds search extract hprog fuel pos cnt h hmem).2⟩
  · intro ha
    rw [runPassAux, hm]
    show (if accepts md = true then
        mkHero extract md cnt :: runPassAux search extract fuel md.mend (cnt+1)
      else runPassAux search extract fuel (md.mstart + 1) cnt)
      = runPassAux search extract fuel (md.mstart + 1) cnt
    rw [if_neg (by rw [ha]; exact Bool.false_ne_true)]
  · intro ha
    rw [runPassAux, hm]
    show (if accepts md = true then
        mkHero extract md cnt :: runPassAux search extract fuel md.mend (cnt+1)
      else runPassAux search extract fuel (md.mstart + 1) cnt)
      = mkHero extract md cnt :: runPassAux search extract fuel md.mend (cnt+1)
    rw [if_pos ha]

/-- Witness for C4 at the concrete buffer `myBuf` with the RGX_HERO matcher:
the match at offset 10000 is accepted and the loop continues from its end,
and the resulting hero list has non-overlapping increasing non-empty spans. -/
theorem claim4_witness :
    (accepts mdHero = false →
      runPassAux (searchHero myBuf) (bufExtract myBuf) 11026 10000 0
        = runPassAux (searchHero myBuf) (bufExtract myBuf) 11025 10001 0) ∧
    (accepts mdHero = true →
      runPassAux (searchHero myBuf) (bufExtract myBuf) 11026 10000 0
        = mkHero (bufExtract myBuf) mdHero 0
            :: runPassAux (searchHero myBuf) (bufExtract myBuf) 11025 11025 1) ∧
    List.Pairwise (fun h1 h2 => h1.span.2 ≤ h2.span.1 ∧ h1.span.1 < h2.span.1)
      (runPassAux (searchHero myBuf) (bufExtract myBuf) 11025 10000 0) ∧
    (∀ h ∈ runPassAux (searchHero myBuf) (bufExtract myBuf) 11025 10000 0,
      h.span.1 < h.span.2) :=
  claim4 (searchHero myBuf) (bufExtract myBuf) (searchHero_prog myBuf)
    11025 10000 0 mdHero (by decide)

/-- Claim C8: every hero accepted by a detection pass starts at or after the
fixed minimum offset 10000, for any progressive matcher. -/
theorem claim8 (search : Buffer → Nat → Option MatchData) (b : Buffer)
    (hprog : ∀ pos md, search b pos = some md → pos ≤ md.mstart ∧ md.mstart < md.mend)
    (h : Hero) (hmem : h ∈ runPassOn search b) : 10000 ≤ h.span.1 :=
  (runPassAux_bounds (search b) (bufExtract b) hprog (b.size + 1) 10000 0 h hmem).1

/-- Witness for C8: the hero actually detected in `myBuf` by the RGX_HERO
matcher starts at offset 10000, at the minimum offset. -/
theorem claim8_witness : 10000 ≤ (mkHero (bufExtract myBuf) mdHero 0).span.1 :=
  claim8 searchHero myBuf (searchHero_prog myBuf)
    (mkHero (bufExtract myBuf) mdHero 0) (by decide)

/-- Members of a takeWhile run satisfy the predicate. -/
theorem mem_takeWhile_sat (q : Nat → Bool) :
    ∀ (l : List Nat) (c : Nat), c ∈ l.takeWhile q → q c = true := by
  intro l
  induction l with
  | nil => intro c hc; simp at hc
  | cons a t ih =>
    intro c hc
    by_cases hq : q a = true
    · rw [List.takeWhile_cons, if_pos hq] at hc
      rcases List.mem_cons.1 hc with rfl | hc
      · exact hq
      · exact ih c hc
    · rw [List.takeWhile_cons, if_neg hq] at hc
      simp at hc

/-- takeWhile and dropWhile split an append at the boundary when the left part
satisfies the predicate throughout and the right part starts failing it. -/
theorem takeWhile_append_all (q : Nat → Bool) :
    ∀ (p z : List Nat),
      (∀ c ∈ p, q c = true) → (∀ b0, z.head? = some b0 → q b0 = false) →
      (p ++ z).takeWhile q = p ∧ (p ++ z).dropWhile q = z := by
  intro p
  induction p with
  | nil =>
    intro z _ h2
    cases z with
    | nil => exact ⟨rfl, rfl⟩
    | cons c cs =>
      have hc : q c = false := h2 c rfl
      rw [List.nil_append, List.takeWhile_cons, List.dropWhile_cons]
      rw [if_neg (by rw [hc]; exact Bool.false_ne_true)]
      rw [if_neg (by rw [hc]; exact Bool.false_ne_true)]
      exact ⟨rfl, rfl⟩
  | cons a ps ih =>
    intro z h1 h2
    have ha : q a = true := h1 a (List.mem_cons_self a ps)
    have hih := ih z (fun c hc => h1 c (List.mem_cons_of_mem a hc)) h2
    rw [List.cons_append, List.takeWhile_cons, List.dropWhile_cons, if_pos ha, if_pos ha]
    rw [hih.1, hih.2]
    exact ⟨rfl, rfl⟩

/-- Characterization of `rgx_strip.match` on a capture whose last byte is NUL
(true of every RGX_HERO name capture, which the structural pattern ends with
`\x00`): the capture is a non-empty run of allowed bytes followed by a
non-empty run of NUL bytes filling it. -/
theorem stripMatch_iff (s : List Nat) (hlast : s.getLast? = some 0) :
    stripMatch s = true ↔
      ∃ p z, s = p ++ z ∧ p ≠ [] ∧ (∀ c ∈ p, allowedChar c = true) ∧
        z ≠ [] ∧ (∀ c ∈ z, c = 0) := by
  constructor
  · intro h
    simp only [stripMatch, Bool.and_eq_true, Bool.or_eq_true, Bool.not_eq_true'] at h
    set pre := s.takeWhile allowedChar with hpre0
    set rest := s.dropWhile allowedChar with hrest0
    set zs := rest.takeWhile (fun c => c == 0) with hzs0
    set tl := rest.dropWhile (fun c => c == 0) with htl0
    obtain ⟨⟨hpre, hzs⟩, htl⟩ := h
    have hsplit : pre ++ rest = s := List.takeWhile_append_dropWhile allowedChar s
    have hsplit2 : zs ++ tl = rest := List.takeWhile_append_dropWhile _ rest
    rcases htl with htl | htl
    · have htl2 : tl = [] := List.isEmpty_iff.1 htl
      refine ⟨pre, zs, ?_, ?_, ?_, ?_, ?_⟩
      · rw [← hsplit, ← hsplit2, htl2, List.append_nil]
      · intro hc; rw [hc] at hpre; simp at hpre
      · exact fun c hc => mem_takeWhile_sat allowedChar s c hc
      · intro hc; rw [hc] at hzs; simp at hzs
      · intro c hc
        have := mem_takeWhile_sat (fun c => c == 0) rest c hc
        simpa using this
    · exfalso
      have htl2 : tl = [10] := by simpa using htl
      have hs2 : s = (pre ++ zs) ++ [10] := by
        rw [← hsplit, ← hsplit2, htl2, List.append_assoc]
      rw [hs2, List.getLast?_concat] at hlast
      simp at hlast
  · rintro ⟨p, z, rfl, hp, hall, hz, hzero⟩
    have hhead : ∀ b0, z.head? = some b0 → allowedChar b0 = false := by
      intro b0 hb0
      cases z with
      | nil => simp at hb0
      | cons c cs =>
        have hc : c = b0 := by simpa using hb0
        have hc0 : c = 0 := hzero c (List.mem_cons_self c cs)
        rw [← hc, hc0]
        decide
    obtain ⟨ht, hd⟩ := takeWhile_append_all allowedChar p z hall hhead
    have hzall : ∀ c ∈ z, (fun c => c == 0) c = true := by
      intro c hc
      simpa using hzero c hc
    have h2 := takeWhile_append_all (fun c => c == 0) z [] hzall (by intro b0 hb0; simp at hb0)
    rw [List.append_nil] at h2
    simp only [stripMatch, ht, hd, h2.1, h2.2]
    simp [List.isEmpty_iff, hp, hz]

/-- The block alternative of rgx_nulls only matches strings starting with a
NUL byte. -/
theorem blocksThenEnd_head : ∀ s : List Nat, blocksThenEnd s = true → s.head? = some 0 := by
  intro s h
  rcases s with _ | ⟨a, _ | ⟨b, _ | ⟨c, _ | ⟨d, _ | ⟨e, _ | ⟨f, _ | ⟨g, _ | ⟨k, rest⟩⟩⟩⟩⟩⟩⟩⟩ <;>
    simp [blocksThenEnd] at h ⊢
  omega

/-- Both alternatives of rgx_nulls require (and the first one only requires) a
NUL first byte, so `rgx_nulls.match(s)` succeeds exactly when `s` starts with
a NUL byte. -/
theorem nullsMatch_iff (s : List Nat) : nullsMatch s = true ↔ s.head? = some 0 := by
  unfold nullsMatch
  rw [Bool.or_eq_true]
  constructor
  · intro h
    rcases h with h1 | h1
    · exact eq_of_beq h1
    · exact blocksThenEnd_head s h1
  · intro h
    exact Or.inl (beq_of_eq h)

/-- Counterexample to Claim C3 as stated: the synthetic hero of `myBuf` has a
worn-equipment capture consisting of 19 entirely blank slots (the layout's
blank-spot encoding `FF FF FF FF 00 00 00 00`), yet it passes secondary
validation and is accepted into the detection result — the claim requires a
span whose slot table is entirely empty slots to be rejected. -/
theorem claim3_counterexample :
    heroPass myBuf = [mkHero (bufExtract myBuf) mdHero 0] ∧
    mdHero.artCap = List.flatten (List.replicate 19 [255, 255, 255, 255, 0, 0, 0, 0]) ∧
    accepts mdHero = true := by
  exact ⟨by decide, by decide, by decide⟩

/-- Amended Claim C3: a structurally matching span is accepted iff (1) its
name capture is one or more bytes of the allowed class (0x1A..0xEF minus
comma) followed by one or more NUL bytes filling the capture, and (2) its
worn-equipment capture does not begin with a NUL byte (the `rgx_nulls` test
reduces to a first-byte-NUL check; an all-blank FF-led table is accepted). -/
theorem claim3_amended (md : MatchData) (hlast : md.nameCap.getLast? = some 0) :
    accepts md = true ↔
      ((∃ p z, md.nameCap = p ++ z ∧ p ≠ [] ∧ (∀ c ∈ p, allowedChar c = true) ∧
          z ≠ [] ∧ (∀ c ∈ z, c = 0)) ∧ md.artCap.head? ≠ some 0) := by
  unfold accepts
  rw [Bool.and_eq_true, Bool.not_eq_true']
  rw [stripMatch_iff md.nameCap hlast]
  constructor
  · rintro ⟨h1, h2⟩
    refine ⟨h1, ?_⟩
    intro hh
    rw [(nullsMatch_iff md.artCap).2 hh] at h2
    exact absurd h2 (by simp)
  · rintro ⟨h1, h2⟩
    refine ⟨h1, ?_⟩
    by_cases hnm : nullsMatch md.artCap = true
    · exact absurd ((nullsMatch_iff _).1 hnm) h2
    · exact Bool.eq_false_iff.2 hnm

/-- Witness for the amended C3 at the concrete capture of `myBuf`'s hero. -/
theorem claim3_amended_witness :
    accepts mdHero = true ↔
      ((∃ p z, mdHero.nameCap = p ++ z ∧ p ≠ [] ∧ (∀ c ∈ p, allowedChar c = true) ∧
          z ≠ [] ∧ (∀ c ∈ z, c = 0)) ∧ mdHero.artCap.head? ≠ some 0) :=
  claim3_amended mdHero (by decide)

/-- isEmpty tests equality with the empty list. -/
theorem isEmptyIff {α : Type} (l : List α) : l.isEmpty = true ↔ l = [] := by
  cases l <;> simp

/-- Filtering with an everywhere-true predicate keeps the list. -/
theorem filter_all {α : Type} (p : α → Bool) :
    ∀ l : List α, (∀ a ∈ l, p a = true) → l.filter p = l := by
  intro l
  induction l with
  | nil => intro _; rfl
  | cons a t ih =>
    intro h
    rw [List.filter_cons, if_pos (h a (List.mem_cons_self a t))]
    rw [ih (fun x hx => h x (List.mem_cons_of_mem a hx))]

/-- An empty filter result means the predicate fails on every member. -/
theorem filterNilAll {α : Type} (p : α → Bool) :
    ∀ l : List α, l.filter p = [] → ∀ a ∈ l, p a = false := by
  intro l
  induction l with
  | nil => intro _ a ha; simp at ha
  | cons b t ih =>
    intro h a ha
    rw [List.filter_cons] at h
    by_cases hpb : p b = true
    · rw [if_pos hpb] at h; simp at h
    · rw [if_neg hpb] at h
      rcases List.mem_cons.1 ha with rfl | ha
      · exact Bool.eq_false_iff.2 hpb
      · exact ih h a ha

/-- Membership in a stable insertion. -/
theorem mem_insOrd {α : Type} (le : α → α → Bool) (a : α) :
    ∀ (l : List α) (x : α), x ∈ insOrd le a l ↔ x = a ∨ x ∈ l := by
  intro l
  induction l with
  | nil => intro x; simp [insOrd]
  | cons b t ih =>
    intro x
    simp only [insOrd]
    by_cases h : le b a = true
    · rw [if_pos h]
      rw [List.mem_cons, List.mem_cons, ih]
      tauto
    · rw [if_neg h]
      simp [List.mem_cons]

/-- Stable insertion preserves sortedness when the key order is total and
transitive. -/
theorem pairwise_insOrd {α : Type} (le : α → α → Bool)
    (htot : ∀ a b, le a b = true ∨ le b a = true)
    (htr : ∀ a b c, le a b = true → le b c = true → le a c = true)
    (a : α) :
    ∀ l : List α, List.Pairwise (fun x y => le x y = true) l →
      List.Pairwise (fun x y => le x y = true) (insOrd le a l) := by
  intro l
  induction l with
  | nil => intro _; simp [insOrd]
  | cons b t ih =>
    intro hp
    rw [List.pairwise_cons] at hp
    simp only [insOrd]
    by_cases h : le b a = true
    · rw [if_pos h]
      rw [List.pairwise_cons]
      refine ⟨?_, ih hp.2⟩
      intro x hx
      rcases (mem_insOrd le a t x).1 hx with rfl | hx
      · exact h
      · exact hp.1 x hx
    · rw [if_neg h]
      rw [List.pairwise_cons]
      refine ⟨?_, List.pairwise_cons.2 hp⟩
      intro x hx
      have hab : le a b = true := (htot a b).resolve_right (fun hc => h hc)
      rcases List.mem_cons.1 hx with rfl | hx
      · exact hab
      · exact htr a b x hab (hp.1 x hx)

/-- The stable sort produces a list sorted under the key order. -/
theorem pairwise_stableSort {α : Type} (le : α → α → Bool)
    (htot : ∀ a b, le a b = true ∨ le b a = true)
    (htr : ∀ a b c, le a b = true → le b c = true → le a c = true)
    (l : List α) :
    List.Pairwise (fun x y => le x y = true) (stableSort le l) := by
  have main : ∀ (l2 acc : List α),
      List.Pairwise (fun x y => le x y = true) acc →
      List.Pairwise (fun x y => le x y = true)
        (l2.foldl (fun acc x => insOrd le x acc) acc) := by
    intro l2
    induction l2 with
    | nil => intro acc h; simpa using h
    | cons b t ih =>
      intro acc h
      exact ih _ (pairwise_insOrd le htot htr b acc h)
  exact main l [] (by simp)

/-- Lexicographic byte-string order is total. -/
theorem lexLe_total : ∀ s t : List Nat, lexLe s t = true ∨ lexLe t s = true := by
  intro s
  induction s with
  | nil => intro t; exact Or.inl rfl
  | cons a s ih =>
    intro t
    cases t with
    | nil => exact Or.inr rfl
    | cons b t =>
      rcases Nat.lt_trichotomy a b with h | h | h
      · left
        simp only [lexLe]
        rw [if_pos h]
      · subst h
        rcases ih t with h2 | h2
        · left
          simp only [lexLe]
          rw [if_neg (Nat.lt_irrefl a), if_neg (Nat.lt_irrefl a)]
          exact h2
        · right
          simp only [lexLe]
          rw [if_neg (Nat.lt_irrefl a), if_neg (Nat.lt_irrefl a)]
          exact h2
      · right
        simp only [lexLe]
        rw [if_pos h]

/-- Lexicographic byte-string order is transitive. -/
theorem lexLe_trans : ∀ s t u : List Nat,
    lexLe s t = true → lexLe t u = true → lexLe s u = true := by
  intro s
  induction s with
  | nil => intro t u _ _; rfl
  | cons a s ih =>
    intro t u h1 h2
    cases t with
    | nil => simp [lexLe] at h1
    | cons b t =>
      cases u with
      | nil => simp [lexLe] at h2
      | cons c u =>
        simp only [lexLe] at h1 h2 ⊢
        by_cases hab : a < b
        · by_cases hbc : b < c
          · rw [if_pos (Nat.lt_trans hab hbc)]
          · by_cases hcb : c < b
            · rw [if_neg hbc, if_pos hcb] at h2
              exact absurd h2 (by simp)
            · have hbceq : b = c := by omega
              subst hbceq
              rw [if_pos hab]
        · by_cases hba : b < a
          · rw [if_neg hab, if_pos hba] at h1
            exact absurd h1 (by simp)
          · have habeq : a = b := by omega
            subst habeq
            rw [if_neg hab, if_neg hba] at h1
            by_cases hac : a < c
            · rw [if_pos hac]
            · by_cases hca : c < a
              · rw [if_neg hac, if_pos hca] at h2
                exact absurd h2 (by simp)
              · have haceq : a = c := by omega
                subst haceq
                rw [if_neg hac, if_neg hca] at h2
                rw [if_neg hac, if_neg hca]
                exact ih t u h1 h2

/-- The hero sort key order is total. -/
theorem heroLe_total : ∀ a b : Hero, heroLe a b = true ∨ heroLe b a = true :=
  fun a b => lexLe_total (lowerName a.name) (lowerName b.name)

/-- The hero sort key order is transitive. -/
theorem heroLe_trans : ∀ a b c : Hero,
    heroLe a b = true → heroLe b c = true → heroLe a c = true :=
  fun a b c => lexLe_trans (lowerName a.name) (lowerName b.name) (lowerName c.name)

/-- The seed is below a max-fold. -/
theorem foldlMax_init : ∀ (l : List Nat) (a : Nat), a ≤ l.foldl Nat.max a := by
  intro l
  induction l with
  | nil => intro a; exact Nat.le_refl a
  | cons x t ih =>
    intro a
    rw [List.foldl_cons]
    exact Nat.le_trans (Nat.le_max_left a x) (ih (Nat.max a x))

/-- Every member is below a max-fold. -/
theorem foldlMax_mem_le : ∀ (l : List Nat) (a x : Nat), x ∈ l → x ≤ l.foldl Nat.max a := by
  intro l
  induction l with
  | nil => intro a x hx; simp at hx
  | cons y t ih =>
    intro a x hx
    rw [List.foldl_cons]
    rcases List.mem_cons.1 hx with rfl | hx
    · exact Nat.le_trans (Nat.le_max_right a x) (foldlMax_init t _)
    · exact ih _ x hx

/-- A max-fold is the seed or a member. -/
theorem foldlMax_attained : ∀ (l : List Nat) (a : Nat),
    l.foldl Nat.max a = a ∨ l.foldl Nat.max a ∈ l := by
  intro l
  induction l with
  | nil => intro a; exact Or.inl rfl
  | cons x t ih =>
    intro a
    rw [List.foldl_cons]
    rcases ih (Nat.max a x) with h | h
    · rw [h]
      rcases Nat.le_total a x with h2 | h2
      · have h3 : Nat.max a x = x := Nat.max_eq_right h2
        rw [h3]
        exact Or.inr (List.mem_cons_self x t)
      · have h3 : Nat.max a x = a := Nat.max_eq_left h2
        rw [h3]
        exact Or.inl rfl
    · exact Or.inr (List.mem_cons_of_mem x h)

/-- An empty getLast? means an empty list. -/
theorem getLast?_none {α : Type} : ∀ l : List α, l.getLast? = none → l = [] := by
  intro l
  induction l with
  | nil => intro _; rfl
  | cons a t ih =>
    intro h
    cases t with
    | nil => simp at h
    | cons b t2 =>
      rw [List.getLast?_cons_cons] at h
      exact absurd (ih h) (by simp)

/-- The last element is a member. -/
theorem mem_getLast? {α : Type} : ∀ (l : List α) (x : α), l.getLast? = some x → x ∈ l := by
  intro l
  induction l with
  | nil => intro x h; simp at h
  | cons a t ih =>
    intro x h
    cases t with
    | nil =>
      have hax : a = x := by simpa using h
      rw [← hax]
      exact List.mem_cons_self a []
    | cons b t2 =>
      rw [List.getLast?_cons_cons] at h
      exact List.mem_cons_of_mem a (ih x h)

/-- The last filter survivor splits the list, with the predicate false on
everything after it. -/
theorem filter_getLast_split {α : Type} (p : α → Bool) :
    ∀ (l : List α) (x : α), (l.filter p).getLast? = some x →
      ∃ l1 l2, l = l1 ++ x :: l2 ∧ ∀ v ∈ l2, p v = false := by
  intro l
  induction l with
  | nil => intro x h; simp at h
  | cons a t ih =>
    intro x h
    rw [List.filter_cons] at h
    by_cases hpa : p a = true
    · rw [if_pos hpa] at h
      cases hft : t.filter p with
      | nil =>
        rw [hft] at h
        have hax : a = x := by simpa using h
        subst hax
        exact ⟨[], t, rfl, filterNilAll p t hft⟩
      | cons c cs =>
        rw [hft, List.getLast?_cons_cons, ← hft] at h
        rcases ih x h with ⟨l1, l2, heq, hl2⟩
        exact ⟨a :: l1, l2, by rw [heq, List.cons_append], hl2⟩
    · rw [if_neg hpa] at h
      rcases ih x h with ⟨l1, l2, heq, hl2⟩
      exact ⟨a :: l1, l2, by rw [heq, List.cons_append], hl2⟩

/-- The effective candidate list is never empty. -/
theorem effVersions_ne_nil (versions0 : List String) (ver0 : String) :
    effVersions versions0 ver0 ≠ [] := by
  unfold effVersions
  by_cases h : versions0.isEmpty = true
  · rw [if_pos h]; simp
  · rw [if_neg h]
    intro hc
    rw [hc] at h
    exact h rfl

/-- The selected version of HeroPlugin.parse: `maxcount_vers[-1]` exists, lies
in the candidate list, attains the maximal count, bounds every candidate's
count, and no candidate after it in list order also attains the maximum. -/
theorem select_spec (searchOf : String → Buffer → Nat → Option MatchData) (b : Buffer)
    (versions : List String) (hne : versions ≠ []) :
    ∃ sel, (maxVers searchOf b versions).getLast? = some sel ∧
      sel ∈ versions ∧
      passCount searchOf b sel = maxCount searchOf b versions ∧
      (∀ v ∈ versions, passCount searchOf b v ≤ maxCount searchOf b versions) ∧
      ∃ l1 l2, versions = l1 ++ sel :: l2 ∧
        ∀ v ∈ l2, passCount searchOf b v ≠ maxCount searchOf b versions := by
  have hbound : ∀ v ∈ versions, passCount searchOf b v ≤ maxCount searchOf b versions := by
    intro v hv
    exact foldlMax_mem_le _ 0 _ (List.mem_map_of_mem _ hv)
  have hatt : ∃ v ∈ versions, passCount searchOf b v = maxCount searchOf b versions := by
    rcases foldlMax_attained (versions.map (passCount searchOf b)) 0 with h | h
    · have h0 : maxCount searchOf b versions = 0 := h
      cases versions with
      | nil => exact absurd rfl hne
      | cons v t =>
        refine ⟨v, List.mem_cons_self v t, ?_⟩
        have hle := hbound v (List.mem_cons_self v t)
        omega
    · rcases List.mem_map.1 h with ⟨v, hv, hveq⟩
      exact ⟨v, hv, hveq⟩
  rcases hatt with ⟨v, hv, hveq⟩
  have hvin : v ∈ maxVers searchOf b versions := by
    unfold maxVers
    rw [List.mem_filter]
    refine ⟨hv, ?_⟩
    rw [hveq]
    simp
  have hmv : maxVers searchOf b versions ≠ [] := by
    intro hc
    rw [hc] at hvin
    simp at hvin
  cases hsel : (maxVers searchOf b versions).getLast? with
  | none => exact absurd (getLast?_none _ hsel) hmv
  | some sel =>
    have hselmem := mem_getLast? _ sel hsel
    unfold maxVers at hselmem
    rw [List.mem_filter] at hselmem
    have hseleq : passCount searchOf b sel = maxCount searchOf b versions := by
      simpa using hselmem.2
    have hsplit := filter_getLast_split
      (fun v => passCount searchOf b v == maxCount searchOf b versions) versions sel hsel
    rcases hsplit with ⟨l1, l2, heq, hl2⟩
    refine ⟨sel, rfl, hselmem.1, hseleq, hbound, l1, l2, heq, ?_⟩
    intro w hw hweq
    have hfw : (passCount searchOf b w == maxCount searchOf b versions) = false :=
      hl2 w hw
    rw [hweq] at hfw
    simp at hfw

/-- The two possible outcomes of HeroPlugin.parse, keyed by the truthiness of
the selected candidate. -/
theorem parse_spec (searchOf : String → Buffer → Nat → Option MatchData) (b : Buffer)
    (versions0 : List String) (ver0 : String) :
    ∃ sel, (maxVers searchOf b (effVersions versions0 ver0)).getLast? = some sel ∧
      (sel = "" → parse searchOf b versions0 ver0 =
        { heroes := [], version := ver0, reported := true }) ∧
      (sel ≠ "" → parse searchOf b versions0 ver0 =
        { heroes := stableSort heroLe (runPassOn (searchOf sel) b)
          version := sel, reported := false }) := by
  rcases select_spec searchOf b (effVersions versions0 ver0)
    (effVersions_ne_nil versions0 ver0) with ⟨sel, hsel, _⟩
  refine ⟨sel, hsel, ?_, ?_⟩
  · intro h0
    unfold parse
    rw [hsel]
    show (if sel = "" then ({ heroes := [], version := ver0, reported := true } : ParseOutcome)
      else { heroes := stableSort heroLe (runPassOn (searchOf sel) b)
             version := sel, reported := false })
      = { heroes := [], version := ver0, reported := true }
    rw [if_pos h0]
  · intro h0
    unfold parse
    rw [hsel]
    show (if sel = "" then ({ heroes := [], version := ver0, reported := true } : ParseOutcome)
      else { heroes := stableSort heroLe (runPassOn (searchOf sel) b)
             version := sel, reported := false })
      = { heroes := stableSort heroLe (runPassOn (searchOf sel) b)
          version := sel, reported := false }
    rw [if_neg h0]

/-- Counterexample to Claim C1 as stated: with one candidate version "A"
(non-empty name), a matcher that never matches, and prior version "x",
every layout yields zero accepted matches, yet parse does not surface the
"no heroes identified" condition and it changes the recorded version to "A"
(max of the all-zero counts is 0, every candidate ties, and the last-listed
tied candidate is selected and installed) — the claim requires the condition
to be reported and the version to stay "x". -/
theorem claim1_counterexample :
    runPassOn (noMatchSearch "A") emptyBuf = [] ∧
    (parse noMatchSearch emptyBuf ["A"] "x").reported = false ∧
    (parse noMatchSearch emptyBuf ["A"] "x").version = "A" ∧
    (parse noMatchSearch emptyBuf ["A"] "x").version ≠ "x" ∧
    (parse noMatchSearch emptyBuf ["A"] "x").heroes = [] := by
  exact ⟨by decide, by decide, by decide, by decide, by decide⟩

/-- Amended Claim C1: when no candidate layout yields any accepted match, the
hero list is empty; the selected candidate is the last-listed (first-tried)
one, since all candidates tie at count zero. If its name is non-empty the
recorded version is set to it and no "no heroes identified" condition is
surfaced; the condition is surfaced, with the version left unchanged, exactly
when the selected candidate's name is empty (Python None). -/
theorem claim1_amended (searchOf : String → Buffer → Nat → Option MatchData) (b : Buffer)
    (versions0 : List String) (ver0 : String)
    (hz : ∀ v ∈ effVersions versions0 ver0, runPassOn (searchOf v) b = []) :
    (parse searchOf b versions0 ver0).heroes = [] ∧
    ∃ sel, (effVersions versions0 ver0).getLast? = some sel ∧
      ((sel = "" ∧ (parse searchOf b versions0 ver0).version = ver0 ∧
        (parse searchOf b versions0 ver0).reported = true) ∨
       (sel ≠ "" ∧ (parse searchOf b versions0 ver0).version = sel ∧
        (parse searchOf b versions0 ver0).reported = false)) := by
  have hz2 : ∀ v ∈ effVersions versions0 ver0, passCount searchOf b v = 0 := by
    intro v hv
    unfold passCount
    rw [hz v hv]
    rfl
  have hmc : maxCount searchOf b (effVersions versions0 ver0) = 0 := by
    unfold maxCount
    rcases foldlMax_attained ((effVersions versions0 ver0).map (passCount searchOf b)) 0
      with h | h
    · exact h
    · rcases List.mem_map.1 h with ⟨v, hv, hveq⟩
      rw [← hveq]
      exact hz2 v hv
  have hfeq : maxVers searchOf b (effVersions versions0 ver0) = effVersions versions0 ver0 := by
    unfold maxVers
    apply filter_all
    intro v hv
    rw [hz2 v hv, hmc]
    simp
  rcases parse_spec searchOf b versions0 ver0 with ⟨sel, hsel, hemp, hfull⟩
  rw [hfeq] at hsel
  by_cases h0 : sel = ""
  · rw [hemp h0]
    exact ⟨rfl, sel, hsel, Or.inl ⟨h0, rfl, rfl⟩⟩
  · rw [hfull h0]
    have hselmem := mem_getLast? _ sel hsel
    constructor
    · show stableSort heroLe (runPassOn (searchOf sel) b) = []
      rw [hz sel hselmem]
      rfl
    · exact ⟨sel, hsel, Or.inr ⟨h0, rfl, rfl⟩⟩

/-- Witness for the amended C1 at the concrete zero-match input: the hero
list is empty and the selected candidate "A" (non-empty) is installed with no
report. -/
theorem claim1_amended_witness :
    (parse noMatchSearch emptyBuf ["A"] "x").heroes = [] ∧
    ∃ sel, (effVersions ["A"] "x").getLast? = some sel ∧
      ((sel = "" ∧ (parse noMatchSearch emptyBuf ["A"] "x").version = "x" ∧
        (parse noMatchSearch emptyBuf ["A"] "x").reported = true) ∨
       (sel ≠ "" ∧ (parse noMatchSearch emptyBuf ["A"] "x").version = sel ∧
        (parse noMatchSearch emptyBuf ["A"] "x").reported = false)) :=
  claim1_amended noMatchSearch emptyBuf ["A"] "x" (by decide)

/-- Counterexample to Claim C2 as stated: candidates ["A", "B"] (traversal
pops from the end, so "B" is tried first and "A" last), both passes tie at
one hero. The claim's tie-break — "the last equal-max layout encountered in
the newest-to-oldest traversal", i.e. the older "A" — predicts "A"; the code
selects `maxcount_vers[-1]` in candidate-list order, which is "B", the
first-tried (newest) layout. -/
theorem claim2_counterexample :
    passCount tieSearch emptyBuf "A" = 1 ∧
    passCount tieSearch emptyBuf "B" = 1 ∧
    (parse tieSearch emptyBuf ["A", "B"] "x").version = "B" := by
  exact ⟨by decide, by decide, by decide⟩

/-- Amended Claim C2: for a non-empty candidate list of non-empty version
names, parse selects a candidate attaining the maximal hero count; ties are
broken toward the candidate latest in the candidate list — equivalently the
first equal-max layout encountered in the newest-to-oldest traversal (the
newest, first-tried one) — so no candidate after the selected one in list
order also attains the maximum. The savefile's recorded version is set to the
selected layout and its (sorted) heroes are installed. -/
theorem claim2_amended (searchOf : String → Buffer → Nat → Option MatchData) (b : Buffer)
    (versions0 : List String) (ver0 : String)
    (hne : versions0 ≠ []) (hnn : ∀ v ∈ versions0, v ≠ "") :
    (parse searchOf b versions0 ver0).reported = false ∧
    (parse searchOf b versions0 ver0).version ∈ versions0 ∧
    (∀ v ∈ versions0, passCount searchOf b v ≤
      passCount searchOf b (parse searchOf b versions0 ver0).version) ∧
    (parse searchOf b versions0 ver0).heroes
      = stableSort heroLe (runPassOn (searchOf (parse searchOf b versions0 ver0).version) b) ∧
    ∃ l1 l2, versions0 = l1 ++ (parse searchOf b versions0 ver0).version :: l2 ∧
      ∀ v ∈ l2, passCount searchOf b v
        < passCount searchOf b (parse searchOf b versions0 ver0).version := by
  have heff : effVersions versions0 ver0 = versions0 := by
    unfold effVersions
    rw [if_neg (fun hc => hne (isEmptyIff versions0 |>.1 hc))]
  rcases select_spec searchOf b (effVersions versions0 ver0)
    (effVersions_ne_nil versions0 ver0) with
    ⟨sel, hsel, hselmem, hseleq, hbound, l1, l2, hsplit, hl2⟩
  rw [heff] at hselmem hseleq hbound hsplit hl2
  rcases parse_spec searchOf b versions0 ver0 with ⟨sel2, hsel2, _, hfull⟩
  have hsame : sel2 = sel := by
    rw [hsel] at hsel2
    injection hsel2 with h2
    exact h2.symm
  subst hsame
  have hnn2 : sel2 ≠ "" := hnn sel2 hselmem
  rw [hfull hnn2]
  refine ⟨rfl, hselmem, ?_, rfl, l1, l2, hsplit, ?_⟩
  · intro v hv
    rw [hseleq]
    exact hbound v hv
  · intro v hv
    have hvmem : v ∈ versions0 := by
      rw [hsplit]
      exact List.mem_append_right l1 (List.mem_cons_of_mem sel2 hv)
    have hle := hbound v hvmem
    have hne2 := hl2 v hv
    rw [hseleq]
    omega

/-- Witness for the amended C2 at the concrete tied input ["A", "B"]. -/
theorem claim2_witness :
    (parse tieSearch emptyBuf ["A", "B"] "x").reported = false ∧
    (parse tieSearch emptyBuf ["A", "B"] "x").version ∈ ["A", "B"] ∧
    (∀ v ∈ ["A", "B"], passCount tieSearch emptyBuf v ≤
      passCount tieSearch emptyBuf (parse tieSearch emptyBuf ["A", "B"] "x").version) ∧
    (parse tieSearch emptyBuf ["A", "B"] "x").heroes
      = stableSort heroLe (runPassOn
          (tieSearch (parse tieSearch emptyBuf ["A", "B"] "x").version) emptyBuf) ∧
    ∃ l1 l2, ["A", "B"] = l1 ++ (parse tieSearch emptyBuf ["A", "B"] "x").version :: l2 ∧
      ∀ v ∈ l2, passCount tieSearch emptyBuf v
        < passCount tieSearch emptyBuf (parse tieSearch emptyBuf ["A", "B"] "x").version :=
  claim2_amended tieSearch emptyBuf ["A", "B"] "x" (by decide) (by decide)

/-- Claim C7: whenever parse selects a version (no "no heroes identified"
report), the installed hero list is sorted ascending by case-insensitive
name. -/
theorem claim7 (searchOf : String → Buffer → Nat → Option MatchData) (b : Buffer)
    (versions0 : List String) (ver0 : String)
    (hsel : (parse searchOf b versions0 ver0).reported = false) :
    List.Pairwise (fun x y => lexLe (lowerName x.name) (lowerName y.name) = true)
      (parse searchOf b versions0 ver0).heroes := by
  rcases parse_spec searchOf b versions0 ver0 with ⟨sel, _, hemp, hfull⟩
  by_cases h0 : sel = ""
  · rw [hemp h0] at hsel
    simp at hsel
  · rw [hfull h0]
    exact pairwise_stableSort heroLe heroLe_total heroLe_trans _

/-- Witness for C7 on `myBuf2`, where the pass finds "B" before "A" and the
installed list comes out sorted (["A"-hero, "B"-hero]). -/
theorem claim7_witness :
    List.Pairwise (fun x y => lexLe (lowerName x.name) (lowerName y.name) = true)
      (parse searchOfHero myBuf2 ["v"] "x").heroes :=
  claim7 searchOfHero myBuf2 ["v"] "x" (by decide)

/-- Pointwise value of an elementwise Int sum. -/
theorem zipWith_add_getD : ∀ (d e : List Int) (i : Nat), i < d.length → d.length = e.length →
    (List.zipWith (· + ·) d e).getD i 0 = d.getD i 0 + e.getD i 0 := by
  intro d
  induction d with
  | nil => intro e i hi _; simp at hi
  | cons a d ih =>
    intro e i hi hlen
    cases e with
    | nil => simp at hlen
    | cons b e =>
      cases i with
      | zero => rfl
      | succ n =>
        rw [List.zipWith_cons_cons, List.getD_cons_succ, List.getD_cons_succ,
          List.getD_cons_succ]
        exact ih e n (by simpa using hi) (by simpa using hlen)

/-- The bonus fold of ensure_basestats preserves the accumulator's length when
every row has that length (the zip in the Python comprehension truncates to
the shorter list, so equal lengths keep it fixed). -/
theorem fold_zip_len (f : Option String → List Int) :
    ∀ (L : List (Option String)) (d : List Int),
      (∀ x ∈ L, (f x).length = d.length) →
      (L.foldl (fun a x => List.zipWith (· + ·) a (f x)) d).length = d.length := by
  intro L
  induction L with
  | nil => intro d _; rfl
  | cons x t ih =>
    intro d hw
    rw [List.foldl_cons]
    have hlen : (List.zipWith (· + ·) d (f x)).length = d.length := by
      rw [List.length_zipWith, hw x (List.mem_cons_self x t)]
      simp
    have hw2 : ∀ y ∈ t, (f y).length = (List.zipWith (· + ·) d (f x)).length := by
      intro y hy
      rw [hlen]
      exact hw y (List.mem_cons_of_mem x hy)
    rw [ih _ hw2, hlen]

/-- Pointwise value of the bonus fold: seed plus the per-row sum at that
index. -/
theorem fold_zip_getD (f : Option String → List Int) :
    ∀ (L : List (Option String)) (d : List Int) (i : Nat), i < d.length →
      (∀ x ∈ L, (f x).length = d.length) →
      (L.foldl (fun a x => List.zipWith (· + ·) a (f x)) d).getD i 0
        = d.getD i 0 + (L.map (fun x => (f x).getD i 0)).sum := by
  intro L
  induction L with
  | nil => intro d i _ _; simp
  | cons x t ih =>
    intro d i hi hw
    rw [List.foldl_cons, List.map_cons, List.sum_cons]
    have hlen : (List.zipWith (· + ·) d (f x)).length = d.length := by
      rw [List.length_zipWith, hw x (List.mem_cons_self x t)]
      simp
    have hw2 : ∀ y ∈ t, (f y).length = (List.zipWith (· + ·) d (f x)).length := by
      intro y hy
      rw [hlen]
      exact hw y (List.mem_cons_of_mem x hy)
    rw [ih _ i (by rw [hlen]; exact hi) hw2]
    rw [zipWith_add_getD d (f x) i hi (hw x (List.mem_cons_self x t)).symm]
    omega

/-- Pointwise value of a mapped zip below the common length. -/
theorem zip_map_getD (g : String × Int → String × Int) :
    ∀ (A : List String) (d : List Int) (i : Nat), i < A.length → A.length = d.length →
      ((A.zip d).map g).getD i ("", 0) = g (A.getD i "", d.getD i 0) := by
  intro A
  induction A with
  | nil => intro d i hi _; simp at hi
  | cons a A ih =>
    intro d i hi hlen
    cases d with
    | nil => simp at hlen
    | cons b d =>
      cases i with
      | zero => rfl
      | succ n =>
        rw [List.zip_cons_cons, List.map_cons, List.getD_cons_succ, List.getD_cons_succ,
          List.getD_cons_succ]
        exact ih d n (by simpa using hi) (by simpa using hlen)

/-- Replicated zeros read back as zero below the length. -/
theorem replicate_getD : ∀ (n i : Nat), i < n → (List.replicate n (0 : Int)).getD i 0 = 0 := by
  intro n
  induction n with
  | zero => intro i hi; simp at hi
  | succ m ih =>
    intro i hi
    cases i with
    | zero => rfl
    | succ k =>
      rw [List.replicate_succ, List.getD_cons_succ]
      exact ih k (by omega)

/-- Filtering by pointwise-equal predicates agrees. -/
theorem filterCongr {α : Type} (p q : α → Bool) :
    ∀ l : List α, (∀ x ∈ l, p x = q x) → l.filter p = l.filter q := by
  intro l
  induction l with
  | nil => intro _; rfl
  | cons a t ih =>
    intro h
    rw [List.filter_cons, List.filter_cons, h a (List.mem_cons_self a t),
      ih (fun x hx => h x (List.mem_cons_of_mem a hx))]

/-- Under a well-formed bonus table (every entry as long as the attribute
list, which is non-empty), the Python truthiness filter
`filter(STATS.get, ...)` coincides with "present in the table". -/
theorem truthy_eq_present (STATS : String → Option (List Int)) (PA : List String)
    (hPA : PA ≠ []) (hw : ∀ s l, STATS s = some l → l.length = PA.length) :
    ∀ x : Option String, artTruthy STATS x = presentInTable STATS x := by
  intro x
  cases x with
  | none => rfl
  | some s =>
    cases hst : STATS s with
    | none => simp [artTruthy, artStats, presentInTable, hst]
    | some l =>
      have hlen := hw s l hst
      have hpos : 0 < PA.length := List.length_pos.2 hPA
      have hlne : l ≠ [] := by
        intro hc
        rw [hc] at hlen
        simp at hlen
        omega
      simp [artTruthy, artStats, presentInTable, hst, hlne]

/-- Claim C6: for a hero with an `artifacts` attribute and an empty base-stats
cache, under a well-formed bonus table (each entry covering all primary
attributes, of which there is at least one), ensure_basestats produces one
cache entry per primary attribute, pairing the attribute with its displayed
value minus the total bonus of the equipped artifacts present in the table. -/
theorem claim6 (STATS : String → Option (List Int)) (PA : List String) (h : Hero)
    (arts : List (Option String))
    (hart : h.artifacts = some arts) (hcache : h.basestats = [])
    (hPA : PA ≠ [])
    (hw : ∀ s l, STATS s = some l → l.length = PA.length) :
    (ensure_basestats STATS PA false h).basestats.length = PA.length ∧
    ∀ i, i < PA.length →
      (ensure_basestats STATS PA false h).basestats.getD i ("", 0)
        = (PA.getD i "", statGet h.stats (PA.getD i "") - bonusAt STATS arts i) := by
  have hred : ensure_basestats STATS PA false h =
      { h with basestats :=
          ((PA.zip ((arts.filter (artTruthy STATS)).foldl
              (fun d it => List.zipWith (· + ·) d (artStats STATS it))
              (List.replicate PA.length (0 : Int)))).map
            (fun kv => (kv.1, statGet h.stats kv.1 - kv.2))) } := by
    unfold ensure_basestats
    simp [hcache, hart]
  have hfl : ∀ x ∈ arts.filter (artTruthy STATS),
      (artStats STATS x).length = (List.replicate PA.length (0 : Int)).length := by
    intro x hx
    have htr := (List.mem_filter.1 hx).2
    rw [List.length_replicate]
    cases x with
    | none => simp [artTruthy, artStats] at htr
    | some s =>
      cases hst : STATS s with
      | none => simp [artTruthy, artStats, hst] at htr
      | some l =>
        simp only [artStats, hst, Option.getD_some]
        exact hw s l hst
  have hdlen : ((arts.filter (artTruthy STATS)).foldl
      (fun d it => List.zipWith (· + ·) d (artStats STATS it))
      (List.replicate PA.length (0 : Int))).length = PA.length := by
    rw [fold_zip_len (artStats STATS) _ _ hfl, List.length_replicate]
  constructor
  · rw [hred]
    show ((PA.zip _).map _).length = PA.length
    rw [List.length_map, List.length_zip, hdlen]
    simp
  · intro i hi
    rw [hred]
    show ((PA.zip _).map (fun kv => (kv.1, statGet h.stats kv.1 - kv.2))).getD i ("", 0) = _
    rw [zip_map_getD (fun kv => (kv.1, statGet h.stats kv.1 - kv.2)) PA _ i hi hdlen.symm]
    have hdval : ((arts.filter (artTruthy STATS)).foldl
        (fun d it => List.zipWith (· + ·) d (artStats STATS it))
        (List.replicate PA.length (0 : Int))).getD i 0 = bonusAt STATS arts i := by
      rw [fold_zip_getD (artStats STATS) _ _ i (by rw [List.length_replicate]; exact hi) hfl]
      rw [replicate_getD PA.length i hi]
      unfold bonusAt
      rw [filterCongr (presentInTable STATS) (artTruthy STATS) arts
        (fun x _ => (truthy_eq_present STATS PA hPA hw x).symm)]
      omega
    rw [hdval]

/-- Witness for C6: a displayed attack of 10 with one equipped +3-attack
artifact derives a base attack of 7, and recomputation after the artifact is
removed (cache cleared, slot emptied) derives 10. -/
theorem claim6_witness :
    (ensure_basestats STATS6 PA4 false hero6).basestats.getD 0 ("", 0) = ("attack", 7) ∧
    (ensure_basestats STATS6 PA4 false hero6b).basestats.getD 0 ("", 0) = ("attack", 10) := by
  have hw : ∀ s l, STATS6 s = some l → l.length = PA4.length := by
    intro s l hl
    unfold STATS6 at hl
    by_cases hs : s = "Axe"
    · rw [if_pos hs] at hl
      injection hl with h2
      rw [← h2]
      decide
    · rw [if_neg hs] at hl
      exact absurd hl (by simp)
  constructor
  · rw [(claim6 STATS6 PA4 hero6 [some "Axe"] (by decide) (by decide) (by decide) hw).2
      0 (by decide)]
    decide
  · rw [(claim6 STATS6 PA4 hero6b [none] (by decide) (by decide) (by decide) hw).2
      0 (by decide)]
    decide
